import Mathlib

/-!
Verification of the vqp object-validation library.

The development shallowly embeds the library's data model: JavaScript
values are the inductive `JSVal`, the `Property` rule registry is an
insertion-ordered association list, and the pluggable validator,
typecaster and message registries of the owning `Schema` are functions.
Each definition is translated from the corresponding source function
(`src/validators.js`, `src/utils.js`, `src/property.js`).
-/

set_option autoImplicit false

set_option linter.unusedVariables false

/-- Identity of a JavaScript constructor function. Built-in constructors
are distinguished constructors of this type; user-defined classes carry a
numeric identity (two classes with the same `name` are still distinct). -/
inductive CtorRef where
  | string
  | number
  | boolean
  | array
  | object
  | date
  | function
  | custom (id : Nat) (name : String)
deriving DecidableEq, Repr

/-- A JavaScript value, restricted to the fragment the library manipulates.
`inst c entries` is an instance of the class `c` with own enumerable
entries; `ctorRef c` is a constructor function used as a value (as in
`prop.type(String)`). -/
inductive JSVal where
  | null
  | undefined
  | bool (b : Bool)
  | num (n : Int)
  | str (s : String)
  | arr (xs : List JSVal)
  | obj (entries : List (String × JSVal))
  | inst (ctor : CtorRef) (entries : List (String × JSVal))
  | ctorRef (c : CtorRef)
deriving Repr

/-- The structural type name of a value, as computed by the
`component-type` package (`typeOf` in the source). -/
def JSVal.typeOf : JSVal → String
  | .null => "null"
  | .undefined => "undefined"
  | .bool _ => "boolean"
  | .num _ => "number"
  | .str _ => "string"
  | .arr _ => "array"
  | .obj _ => "object"
  | .inst c _ => match c with
    | .date => "date"
    | _ => "object"
  | .ctorRef _ => "function"

/-- The value's `.constructor` property. `none` for `null`/`undefined`,
where the access would throw (the source only reads `.constructor` after
a `value == null` guard). -/
def JSVal.constructorOf : JSVal → Option CtorRef
  | .null => none
  | .undefined => none
  | .bool _ => some .boolean
  | .num _ => some .number
  | .str _ => some .string
  | .arr _ => some .array
  | .obj _ => some .object
  | .inst c _ => some c
  | .ctorRef _ => some .function

/-- JavaScript loose equality with `null`: `value == null` holds exactly
for `null` and `undefined`. -/
def JSVal.isNullish : JSVal → Bool
  | .null => true
  | .undefined => true
  | _ => false

/-- JavaScript truthiness of a value (`NaN` is outside the modelled
fragment of numbers). -/
def JSVal.jsTruthy : JSVal → Bool
  | .null => false
  | .undefined => false
  | .bool b => b
  | .num n => n != 0
  | .str s => s != ""
  | _ => true

/-- The `.length` property of a value: present on strings and arrays,
`undefined` (here `none`) elsewhere. -/
def JSVal.lengthOf : JSVal → Option Nat
  | .str s => some s.length
  | .arr xs => some xs.length
  | _ => none

/-- Argument accepted by the `length` and `size` built-in validators:
either a bare number or an object with optional `min`/`max` fields
(`none` models an absent field). -/
inductive NumArg where
  | num (n : Int)
  | range (min max : Option Int)
deriving DecidableEq, Repr

/-- JavaScript truthiness of an optional numeric field (`min &&`-style
guard): an absent field and the number `0` are falsy. -/
def jsTruthyOpt : Option Int → Bool
  | none => false
  | some m => m != 0

/-- The comparison `l < m` where `l` is a possibly-undefined length and
`m` a possibly-undefined bound: any comparison with `undefined` is
`false` (NaN semantics). -/
def jsLtOpt (l : Option Nat) (m : Option Int) : Bool :=
  match l, m with
  | some a, some b => decide ((a : Int) < b)
  | _, _ => false

/-- The comparison `l > m`, with the same `undefined` behaviour. -/
def jsGtOpt (l : Option Nat) (m : Option Int) : Bool :=
  match l, m with
  | some a, some b => decide ((a : Int) > b)
  | _, _ => false

/-- The comparison `value < m` used by the `size` validator; non-numeric
operands and absent bounds compare `false`. -/
def jsLtVal (v : JSVal) (m : Option Int) : Bool :=
  match v, m with
  | .num a, some b => decide (a < b)
  | _, _ => false

/-- The comparison `value > m` used by the `size` validator. -/
def jsGtVal (v : JSVal) (m : Option Int) : Bool :=
  match v, m with
  | .num a, some b => decide (a > b)
  | _, _ => false

/-- Source `Validators.required`: `if (required === false) return true;
return value != null && value !== '';`. -/
def Validators.required (value ctx req : JSVal) : Bool :=
  match req with
  | .bool false => true
  | _ =>
    (match value with
      | .null => false
      | .undefined => false
      | _ => true) &&
    (match value with
      | .str "" => false
      | _ => true)

/-- Source `Validators.type`: vacuously true on `null`/`undefined`;
constructor identity when the argument is a function, structural type
name comparison when it is a string (strict equality with a non-string
argument is always false). -/
def Validators.type (value ctx name : JSVal) : Bool :=
  if value.isNullish then true
  else match name with
    | .ctorRef c => value.constructorOf == some c
    | .str s => value.typeOf == s
    | _ => false

/-- Source `Validators.length`: `value.length === len` for a bare number;
otherwise the truthiness-guarded `min`/`max` checks. -/
def Validators.length (value ctx : JSVal) (len : NumArg) : Bool :=
  if value.isNullish then true
  else match len with
    | .num n =>
      match value.lengthOf with
      | some l => (l : Int) == n
      | none => false
    | .range min max =>
      if jsTruthyOpt min && jsLtOpt value.lengthOf min then false
      else if jsTruthyOpt max && jsGtOpt value.lengthOf max then false
      else true

/-- Source `Validators.size`: `value === size` for a bare number;
otherwise the `min`/`max` checks. The source guard `parseInt(min) != null`
is always true (`NaN != null` holds), so the bound checks reduce to the
bare comparisons, which are `false` against an absent bound. -/
def Validators.size (value ctx : JSVal) (size : NumArg) : Bool :=
  if value.isNullish then true
  else match size with
    | .num n =>
      match value with
      | .num m => m == n
      | _ => false
    | .range min max =>
      if jsLtVal value min then false
      else if jsGtVal value max then false
      else true

/-- Source `join(path, prefix)` from `utils.js`: `prefix ? prefix + "." +
path : path` (the empty string is falsy). -/
def join (path : String) (pre : String) : String :=
  if pre = "" then path else pre ++ "." ++ path

/-- One segment of a definition path: a literal key, or the `$` array
wildcard. A path string such as `"pets.$.name"` is the list
`[lit "pets", star, lit "name"]`. -/
inductive Seg where
  | lit (s : String)
  | star
deriving DecidableEq, Repr

/-- Number of wildcard segments in a path; the termination measure of
`enumerate`. -/
def countStars : List Seg → Nat
  | [] => 0
  | .star :: rest => countStars rest + 1
  | .lit _ :: rest => countStars rest

/-- Helper for the split of a path on `.$` boundaries: the literal
segments before the first wildcard, and the segments after it when one
exists. -/
def splitAux : List Seg → List String × Option (List Seg)
  | [] => ([], none)
  | .star :: rest => ([], some rest)
  | .lit s :: rest =>
    let p := splitAux rest
    (s :: p.1, p.2)

/-- The split `path.split(/\.\$(?=\.|$)/)` of `enumerate`, in segment
form: the regex only matches a `$` segment preceded by a dot, so a
wildcard at the very start of the path is the literal key `"$"`. Returns
the resolved-prefix segments and, when a wildcard was found, the
segments after it. -/
def splitSegs : List Seg → List String × Option (List Seg)
  | .star :: rest =>
    let p := splitAux rest
    ("$" :: p.1, p.2)
  | l => splitAux l

/-- First value in an entry list under the given key; `undefined` when
absent (JavaScript object property access). -/
def findEntry : List (String × JSVal) → String → JSVal
  | [], _ => .undefined
  | (k', v) :: rest, k => if k' = k then v else findEntry rest k

/-- A single JavaScript property access `v[k]`: object key lookup, array
access for a canonical decimal index, `undefined` otherwise. -/
def getKey (v : JSVal) (k : String) : JSVal :=
  match v with
  | .obj entries => findEntry entries k
  | .inst _ entries => findEntry entries k
  | .arr xs =>
    match k.toNat? with
    | some n => if toString n = k then xs.getD n .undefined else .undefined
    | none => .undefined
  | _ => .undefined

/-- The `dot.get(obj, path)` of the `@eivifj/dot` dependency: walk the
dotted path, yielding `undefined` as soon as an intermediate value is
`null`/`undefined`. -/
def dotGet : JSVal → List String → JSVal
  | v, [] => v
  | .null, _ :: _ => .undefined
  | .undefined, _ :: _ => .undefined
  | v, k :: rest => dotGet (getKey v k) rest

/-- Whether a value is an array (`Array.isArray`). -/
def JSVal.isArr : JSVal → Bool
  | .arr _ => true
  | _ => false

/-- Source `enumerate(path, obj, callback)` from `utils.js`, with the
callback reified: the returned list holds, in order, the
`(resolvedPath, valueAtPath)` pairs the source passes to `callback`. -/
def enumerate (path : List Seg) (obj : JSVal) : List (List String × JSVal) :=
  match h : splitSegs path with
  | (first, none) => [(first, dotGet obj first)]
  | (first, some rest) =>
    match dotGet obj first with
    | .arr xs =>
      (List.range xs.length).flatMap
        (fun i => enumerate (first.map Seg.lit ++ Seg.lit (toString i) :: rest) obj)
    | _ => []
termination_by countStars path
decreasing_by
  have hmap : ∀ (xs : List String) (r : List Seg),
      countStars (xs.map Seg.lit ++ r) = countStars r := by
    intro xs r
    induction xs with
    | nil => rfl
    | cons a as ih => simpa [countStars] using ih
  have haux : ∀ (l : List Seg) (f : List String) (r : List Seg),
      splitAux l = (f, some r) → countStars r < countStars l := by
    intro l
    induction l with
    | nil => intro f r hx; simp [splitAux] at hx
    | cons seg rest' ih =>
      intro f r hx
      cases seg with
      | star =>
        simp [splitAux] at hx
        simp [countStars, hx.2]
      | lit s =>
        simp [splitAux] at hx
        have := ih (splitAux rest').1 r (by
          rcases hx with ⟨h1, h2⟩
          exact Prod.ext rfl h2)
        simpa [countStars] using this
  have hsplit : ∀ (p : List Seg) (f : List String) (r : List Seg),
      splitSegs p = (f, some r) → countStars r < countStars p := by
    intro p f r hx
    cases p with
    | nil => simp [splitSegs, splitAux] at hx
    | cons seg rest' =>
      cases seg with
      | star =>
        simp [splitSegs] at hx
        have := haux rest' (splitAux rest').1 r (by
          rcases hx with ⟨h1, h2⟩
          exact Prod.ext rfl h2)
        simp [countStars]
        omega
      | lit s =>
        have heq : splitSegs (.lit s :: rest') = splitAux (.lit s :: rest') := rfl
        rw [heq] at hx
        exact haux _ _ _ hx
  rw [hmap]
  have := hsplit path first rest h
  simp [countStars] at this ⊢
  omega

mutual

/-- Source `walk(obj, callback, path, prop)` from `utils.js`, with the
callback's invocations reified: the returned list holds, in order, the
`(path, prop)` pairs passed to `callback`. Arrays are traversed
per-element with a numeric index joined to `path` and a `$` joined to
`prop`; non-`object` non-`array` values end the traversal. -/
def walk (obj : JSVal) (callback : String → String → Bool) (path prop : String) :
    List (String × String) :=
  match obj with
  | .arr xs => walkItems xs callback path prop 0
  | .obj entries => walkEntries entries callback path prop
  | .inst c entries =>
    if JSVal.typeOf (.inst c entries) = "object" then
      walkEntries entries callback path prop
    else []
  | _ => []

/-- The `obj.forEach((v, i) => walk(v, ...))` loop of the array branch of
`walk`, with `i` the index of the first element of `xs`. -/
def walkItems (xs : List JSVal) (callback : String → String → Bool)
    (path prop : String) (i : Nat) : List (String × String) :=
  match xs with
  | [] => []
  | v :: rest =>
    walk v callback (join (toString i) path) (join "$" prop) ++
      walkItems rest callback path prop (i + 1)

/-- The `for (const [key, val] of Object.entries(obj))` loop of `walk`:
invoke the callback on each entry and descend exactly when it returns
true. -/
def walkEntries (entries : List (String × JSVal))
    (callback : String → String → Bool) (path prop : String) :
    List (String × String) :=
  match entries with
  | [] => []
  | (key, val) :: rest =>
    ((join key path, join key prop) ::
      (if callback (join key path) (join key prop) then
        walk val callback (join key path) (join key prop)
      else [])) ++
      walkEntries rest callback path prop

end

/-- Calling contract of a registry validator: `(value, ctx, ...args,
path) -> boolean`, with the spread static arguments gathered in a list. -/
def ValidatorFn := JSVal → JSVal → List JSVal → String → Bool

/-- An entry of a message registry: a literal string, or a generator
`(path, ctx, ...args) -> string`. -/
inductive Msg where
  | str (s : String)
  | fn (f : String → JSVal → List JSVal → String)

/-- JavaScript truthiness of a registered message: the empty string is
falsy, a function is truthy. -/
def Msg.truthy : Msg → Bool
  | .str s => s != ""
  | .fn _ => true

/-- The JavaScript `a || b` over possibly-absent messages: keep `a` when
present and truthy, otherwise yield `b` (even when `b` is falsy). -/
def orTruthy (a b : Option Msg) : Option Msg :=
  match a with
  | some m => if m.truthy then some m else b
  | none => b

/-- Whether an optional message is present and truthy. -/
def optTruthy : Option Msg → Bool
  | some m => m.truthy
  | none => false

/-- A rule registry entry `{args, fn}` as stored by
`Property._register`. -/
structure RuleEntry where
  args : List JSVal
  fn : Option ValidatorFn

/-- The slice of the owning Schema that a Property reads: its validator,
message and typecaster registries (in the source these are the mutable
`schema.validators`, `schema.messages` and `schema.typecasters` maps;
the `_schema` back-reference is passed explicitly here). -/
structure SchemaM where
  validators : String → ValidatorFn
  messages : String → Option Msg
  typecasters : String → Option (JSVal → JSVal)

/-- A `ValidationError(message, path)`; the message is absent when every
message lookup failed. -/
structure VError where
  message : Option String
  path : String
deriving Repr

/-- The `Property` state: its full definition path `name`, the
insertion-ordered rule registry, the declared type `_type` and the
per-property message overrides. -/
structure Property where
  name : String
  registry : List (String × RuleEntry)
  _type : Option JSVal
  messages : String → Option Msg

/-- JavaScript object key assignment `m[k] = v` on an insertion-ordered
association list: an existing key keeps its position and gets the new
value; a new key is appended. -/
def setKey {α : Type} : List (String × α) → String → α → List (String × α)
  | [], k, v => [(k, v)]
  | (k', v') :: rest, k, v =>
    if k' = k then (k, v) :: rest else (k', v') :: setKey rest k v

/-- JavaScript object key read `m[k]` on an association list. -/
def lookupKey {α : Type} : List (String × α) → String → Option α
  | [], _ => none
  | (k', v) :: rest, k => if k' = k then some v else lookupKey rest k

/-- Source `Property._register(type, args, fn)`:
`this.registry[type] = {args, fn}`. -/
def Property._register (p : Property) (type : String) (args : List JSVal)
    (fn : Option ValidatorFn := none) : Property :=
  { p with registry := setKey p.registry type ⟨args, fn⟩ }

/-- Source `Property.required(bool = true)`. -/
def Property.required (p : Property) (b : Bool := true) : Property :=
  p._register "required" [JSVal.bool b]

/-- Source `Property.type(type)`: records the declared type and registers
the `type` rule. -/
def Property.type (p : Property) (type : JSVal) : Property :=
  Property._register { p with _type := some type } "type" [type]

/-- Source `Property.length(rules)`. -/
def Property.length (p : Property) (rules : JSVal) : Property :=
  p._register "length" [rules]

/-- Source `Property.size(rules)`. -/
def Property.size (p : Property) (rules : JSVal) : Property :=
  p._register "size" [rules]

/-- Source `Property.enum(enums)`. -/
def Property.enum (p : Property) (enums : JSVal) : Property :=
  p._register "enum" [enums]

/-- Source `Property.match(regexp)` (the source name `match` is a Lean
keyword). -/
def Property.matchRule (p : Property) (regexp : JSVal) : Property :=
  p._register "match" [regexp]

/-- An element of an array passed to `Property.use`: a validator function
or a static argument value. -/
inductive UseElem where
  | vfn (f : ValidatorFn)
  | varg (v : JSVal)

/-- A value of the object passed to `Property.use`: a bare predicate
function, or an array `[fn, ...staticArgs]`. -/
inductive UseVal where
  | bare (f : ValidatorFn)
  | arr (items : List UseElem)

/-- A `use`-array element as a registered static argument (a function
among the static arguments is outside the modelled fragment). -/
def elemArg : UseElem → JSVal
  | .varg v => v
  | .vfn _ => JSVal.undefined

/-- The shifted head of a `use` array as the custom validator function;
`none` when the head is absent or not a function. -/
def elemFn : Option UseElem → Option ValidatorFn
  | some (.vfn f) => some f
  | _ => none

/-- The observable effect of `Property.use` on one value of the caller's
object: `arr.shift()` mutates an array argument in place (dropping its
head), while a bare function is wrapped in a fresh array and left
untouched. -/
def shiftVal : UseVal → UseVal
  | .bare f => .bare f
  | .arr items => .arr items.tail

/-- Source `Property.use(fns)`: for each named entry, wrap a bare
function into an array, `shift` off the validator function and register
it with the remaining static arguments. The second component is the
caller's `fns` object after the call (the in-place `shift` made
explicit). -/
def Property.use : Property → List (String × UseVal) → Property × List (String × UseVal)
  | p, [] => (p, [])
  | p, (name, v) :: rest =>
    let items : List UseElem :=
      match v with
      | .bare f => [.vfn f]
      | .arr l => l
    let p' := p._register name (items.tail.map elemArg) (elemFn items.head?)
    let r := Property.use p' rest
    (r.1, (name, shiftVal v) :: r.2)

/-- The canonical name of a built-in or custom constructor (its
JavaScript `.name` property). -/
def ctorName : CtorRef → String
  | .string => "String"
  | .number => "Number"
  | .boolean => "Boolean"
  | .array => "Array"
  | .object => "Object"
  | .date => "Date"
  | .function => "Function"
  | .custom _ n => n

/-- The canonical type name `typecast` resolves: a constructor's `.name`
when the declared type is a function, the string itself when it is a
string; other declared types are outside the modelled fragment. -/
def typeNameOf : JSVal → Option String
  | .ctorRef c => some (ctorName c)
  | .str s => some s
  | _ => none

/-- Source `Property.typecast(value)`: identity without a declared type;
otherwise resolve the canonical type name, look it up in the owning
Schema's typecaster registry (falling back to the lower-cased name), and
throw (`Except.error`) when no caster is registered. -/
def Property.typecast (p : Property) (schema : SchemaM) (value : JSVal) :
    Except String JSVal :=
  match p._type with
  | none => Except.ok value
  | some t =>
    if t.jsTruthy = false then Except.ok value
    else
      match typeNameOf t with
      | none => Except.error "Не удалось приввести к типу: Не известный тип."
      | some tyName =>
        match schema.typecasters tyName <|> schema.typecasters tyName.toLower with
        | some cast => Except.ok (cast value)
        | none =>
          Except.error
            ("Не удалось приввести к типу: Не известный тип: " ++ tyName ++ ".")

/-- The resolved message rendered to a string: a generator is applied to
`(path, ctx, ...args)`. -/
def renderMsg (m : Msg) (path : String) (ctx : JSVal) (args : List JSVal) : String :=
  match m with
  | .str s => s
  | .fn f => f path ctx args

/-- Source `Property._error(type, ctx, args, path)`: resolve the message
through `this.messages[type] || this.messages.default ||
schema.messages[type] || schema.messages.default`, apply it when it is a
generator, and build the `ValidationError`. -/
def Property._error (p : Property) (schema : SchemaM) (type : String)
    (ctx : JSVal) (args : List JSVal) (path : String) : VError :=
  let message :=
    orTruthy (p.messages type)
      (orTruthy (p.messages "default")
        (orTruthy (schema.messages type) (schema.messages "default")))
  { message := message.map (fun m => renderMsg m path ctx args), path := path }

/-- Source `Property._run(type, value, ctx, path)`: nothing when the rule
is not registered; otherwise run the custom `fn` if present, else the
owning Schema's validator for the rule name, and produce the error on a
falsy result. -/
def Property._run (p : Property) (schema : SchemaM) (type : String)
    (value ctx : JSVal) (path : String) : Option VError :=
  match lookupKey p.registry type with
  | none => none
  | some entry =>
    let validator := entry.fn.getD (schema.validators type)
    if validator value ctx entry.args path then none
    else some (p._error schema type ctx entry.args path)

/-- The `for (const type of types)` loop of `Property.validate`: run the
named rules in order and stop at the first error. -/
def runTypes (p : Property) (schema : SchemaM) (value ctx : JSVal)
    (path : String) : List String → Option VError
  | [] => none
  | t :: ts =>
    match p._run schema t value ctx path with
    | some err => some err
    | none => runTypes p schema value ctx path ts

/-- Source `Property.validate(value, ctx, path = this.name)`: iterate
`Object.keys(this.registry)` in insertion order, short-circuiting on the
first failing rule; `null` (here `none`) when nothing fails. -/
def Property.validate (p : Property) (schema : SchemaM) (value ctx : JSVal)
    (path : String) : Option VError :=
  runTypes p schema value ctx path (p.registry.map Prod.fst)

/-- C2: the built-in `required` validator with argument `true` fails
exactly on `null`, `undefined` and the empty string, and with argument
`false` passes every value. -/
theorem c2_required_validator :
    ∀ (v ctx : JSVal),
      (Validators.required v ctx (.bool true) = false ↔
        (v = .null ∨ v = .undefined ∨ v = .str "")) ∧
      Validators.required v ctx (.bool false) = true := by
  intro v ctx
  constructor
  · cases v <;> simp [Validators.required]
    case str s =>
      by_cases h : s = "" <;> simp [h]
  · rfl

/-- C3: the built-in `type` validator passes vacuously on `null` and
`undefined`; for any other value it passes exactly when the argument is a
constructor function identical to the value's constructor, or a string
equal to the value's structural type name. -/
theorem c3_type_validator :
    (∀ (ctx name : JSVal),
      Validators.type .null ctx name = true ∧
      Validators.type .undefined ctx name = true) ∧
    (∀ (v ctx name : JSVal), v.isNullish = false →
      (Validators.type v ctx name = true ↔
        ((∃ c, name = .ctorRef c ∧ v.constructorOf = some c) ∨
         (∃ s, name = .str s ∧ v.typeOf = s)))) := by
  constructor
  · intro ctx name
    exact ⟨rfl, rfl⟩
  · intro v ctx name h
    simp only [Validators.type, h, Bool.false_eq_true, if_neg, ite_false]
    cases name <;> simp [beq_iff_eq]

/-- C3 witness: a string value against the `String` constructor. -/
theorem c3_type_validator_witness :
    Validators.type (.str "hi") .null (.ctorRef .string) = true :=
  (c3_type_validator.2 (.str "hi") .null (.ctorRef .string) rfl).mpr
    (Or.inl ⟨.string, rfl, rfl⟩)

/-- C4: `length` and `size` treat `min`/`max` bounds as inclusive, an
omitted bound imposes no constraint on its side, and a bare number means
exact match (of the length for `length`, of the value for `size`). The
positivity hypotheses on `length` bounds reflect the source's truthiness
guards (`min &&`, `max &&`). -/
theorem c4_length_size_bounds :
    (∀ (v ctx : JSVal) (L : Nat) (m M : Int), v.lengthOf = some L →
      v.isNullish = false → 0 < m → 0 < M →
      (Validators.length v ctx (.range (some m) (some M)) = true ↔
        (m ≤ (L : Int) ∧ (L : Int) ≤ M))) ∧
    (∀ (v ctx : JSVal) (L : Nat) (M : Int), v.lengthOf = some L →
      v.isNullish = false → 0 < M →
      (Validators.length v ctx (.range none (some M)) = true ↔ (L : Int) ≤ M)) ∧
    (∀ (v ctx : JSVal) (L : Nat) (m : Int), v.lengthOf = some L →
      v.isNullish = false → 0 < m →
      (Validators.length v ctx (.range (some m) none) = true ↔ m ≤ (L : Int))) ∧
    (∀ (v ctx : JSVal), v.isNullish = false →
      Validators.length v ctx (.range none none) = true) ∧
    (∀ (v ctx : JSVal) (L : Nat) (n : Int), v.lengthOf = some L →
      v.isNullish = false →
      (Validators.length v ctx (.num n) = true ↔ (L : Int) = n)) ∧
    (∀ (x : Int) (ctx : JSVal) (m M : Int),
      (Validators.size (.num x) ctx (.range (some m) (some M)) = true ↔
        (m ≤ x ∧ x ≤ M))) ∧
    (∀ (x : Int) (ctx : JSVal) (M : Int),
      (Validators.size (.num x) ctx (.range none (some M)) = true ↔ x ≤ M)) ∧
    (∀ (x : Int) (ctx : JSVal) (m : Int),
      (Validators.size (.num x) ctx (.range (some m) none) = true ↔ m ≤ x)) ∧
    (∀ (x : Int) (ctx : JSVal),
      Validators.size (.num x) ctx (.range none none) = true) ∧
    (∀ (x : Int) (ctx : JSVal) (n : Int),
      (Validators.size (.num x) ctx (.num n) = true ↔ x = n)) := by
  refine ⟨?_, ?_, ?_, ?_, ?_, ?_, ?_, ?_, ?_, ?_⟩
  · intro v ctx L m M hL hnn hm hM
    simp only [Validators.length, hnn, Bool.false_eq_true, if_false, hL,
      jsTruthyOpt, jsLtOpt, jsGtOpt]
    constructor
    · intro h
      constructor
      · by_contra hc
        push_neg at hc
        simp [hc, Int.ne_of_gt hm] at h
      · by_contra hc
        push_neg at hc
        rcases lt_or_le (L : Int) m with hlt | hge
        · simp [hlt, Int.ne_of_gt hm] at h
        · simp [not_lt.mpr hge, Int.ne_of_gt hm, Int.ne_of_gt hM, hc] at h
    · rintro ⟨h1, h2⟩
      simp [not_lt.mpr h1, not_lt.mpr h2]
  · intro v ctx L M hL hnn hM
    simp only [Validators.length, hnn, Bool.false_eq_true, if_false, hL,
      jsTruthyOpt, jsLtOpt, jsGtOpt]
    constructor
    · intro h
      by_contra hc
      push_neg at hc
      simp [hc, Int.ne_of_gt hM] at h
    · intro h
      simp [not_lt.mpr h]
  · intro v ctx L m hL hnn hm
    simp only [Validators.length, hnn, Bool.false_eq_true, if_false, hL,
      jsTruthyOpt, jsLtOpt, jsGtOpt]
    constructor
    · intro h
      by_contra hc
      push_neg at hc
      simp [hc, Int.ne_of_gt hm] at h
    · intro h
      simp [not_lt.mpr h]
  · intro v ctx hnn
    simp [Validators.length, hnn, jsTruthyOpt]
  · intro v ctx L n hL hnn
    simp [Validators.length, hnn, hL]
  · intro x ctx m M
    simp only [Validators.size, JSVal.isNullish, Bool.false_eq_true, if_false,
      jsLtVal, jsGtVal]
    constructor
    · intro h
      constructor
      · by_contra hc
        push_neg at hc
        simp [hc] at h
      · by_contra hc
        push_neg at hc
        rcases lt_or_le x m with hlt | hge
        · simp [hlt] at h
        · simp [not_lt.mpr hge, hc] at h
    · rintro ⟨h1, h2⟩
      simp [not_lt.mpr h1, not_lt.mpr h2]
  · intro x ctx M
    simp only [Validators.size, JSVal.isNullish, Bool.false_eq_true, if_false,
      jsLtVal, jsGtVal]
    constructor
    · intro h
      by_contra hc
      push_neg at hc
      simp [hc] at h
    · intro h
      simp [not_lt.mpr h]
  · intro x ctx m
    simp only [Validators.size, JSVal.isNullish, Bool.false_eq_true, if_false,
      jsLtVal, jsGtVal]
    constructor
    · intro h
      by_contra hc
      push_neg at hc
      simp [hc] at h
    · intro h
      simp [not_lt.mpr h]
  · intro x ctx
    simp [Validators.size, jsLtVal, jsGtVal]
  · intro x ctx n
    simp [Validators.size, JSVal.isNullish]

/-- C4 witness: the string `"abc"` (length 3) inside inclusive bounds
`{min := 2, max := 5}`, and the number 5 at the inclusive upper bound
`{min := 1, max := 5}`. -/
theorem c4_length_size_bounds_witness :
    Validators.length (.str "abc") .null (.range (some 2) (some 5)) = true ∧
    Validators.size (.num 5) .null (.range (some 1) (some 5)) = true :=
  ⟨(c4_length_size_bounds.1 (.str "abc") .null 3 2 5 rfl rfl (by decide)
      (by decide)).mpr (by decide),
   (c4_length_size_bounds.2.2.2.2.2.1 5 .null 1 5).mpr (by decide)⟩

/-- Looking a key up in an association list only ever returns an entry of
the list. -/
theorem lookupKey_mem {α : Type} (l : List (String × α)) (k : String) (v : α)
    (h : lookupKey l k = some v) : (k, v) ∈ l := by
  induction l with
  | nil => simp [lookupKey] at h
  | cons kv rest ih =>
    obtain ⟨k', v'⟩ := kv
    by_cases hk : k' = k
    · subst hk
      simp [lookupKey] at h
      subst h
      exact List.mem_cons_self _ _
    · simp only [lookupKey, if_neg hk] at h
      exact List.mem_cons_of_mem _ (ih h)

/-- With duplicate-free keys, looking up the key of a known entry finds
exactly that entry (registry keys are unique: a JavaScript object backs
the registry). -/
theorem lookupKey_nodup_mem {α : Type} (l : List (String × α)) (k : String)
    (v : α) (hnd : (l.map Prod.fst).Nodup) (hm : (k, v) ∈ l) :
    lookupKey l k = some v := by
  induction l with
  | nil => simp at hm
  | cons kv rest ih =>
    obtain ⟨k', v'⟩ := kv
    simp only [List.map_cons, List.nodup_cons] at hnd
    rcases List.mem_cons.mp hm with heq | hmem
    · injection heq with h1 h2
      subst h1
      subst h2
      simp [lookupKey]
    · have hk : k' ≠ k := by
        intro hkk
        subst hkk
        exact hnd.1 (List.mem_map_of_mem Prod.fst hmem)
      simp only [lookupKey, if_neg hk]
      exact ih hnd.2 hmem

/-- Running a list of rule names on which every run is silent yields no
error. -/
theorem runTypes_eq_none (p : Property) (s : SchemaM) (v c : JSVal)
    (path : String) (ts : List String)
    (h : ∀ t ∈ ts, p._run s t v c path = none) :
    runTypes p s v c path ts = none := by
  induction ts with
  | nil => rfl
  | cons t ts ih =>
    simp only [runTypes]
    rw [h t (List.mem_cons_self _ _)]
    exact ih fun t' ht' => h t' (List.mem_cons_of_mem _ ht')

/-- Rule names whose run is silent are skipped by the validation loop. -/
theorem runTypes_append_of_none (p : Property) (s : SchemaM) (v c : JSVal)
    (path : String) (ts1 ts2 : List String)
    (h : ∀ t ∈ ts1, p._run s t v c path = none) :
    runTypes p s v c path (ts1 ++ ts2) = runTypes p s v c path ts2 := by
  induction ts1 with
  | nil => rfl
  | cons t ts ih =>
    simp only [List.cons_append, runTypes]
    rw [h t (List.mem_cons_self _ _)]
    exact ih fun t' ht' => h t' (List.mem_cons_of_mem _ ht')

/-- C1: `Property.validate` runs the registered rules in insertion order,
calling each rule's validator (its custom `fn` when given, else the
owning Schema's registry entry for its name) as `(value, ctx, ...args,
path)`; the first falsy result short-circuits and yields that rule's
error, independently of any later rules; and it returns `none` when the
registry is empty or no rule fails. -/
theorem c1_validate_insertion_order_short_circuit :
    (∀ (p : Property) (s : SchemaM) (v c : JSVal) (path : String),
      p.registry = [] → p.validate s v c path = none) ∧
    (∀ (p : Property) (s : SchemaM) (v c : JSVal) (path : String),
      (∀ r e, (r, e) ∈ p.registry →
        (e.fn.getD (s.validators r)) v c e.args path = true) →
      p.validate s v c path = none) ∧
    (∀ (p : Property) (s : SchemaM) (v c : JSVal) (path : String)
       (l1 : List (String × RuleEntry)) (r : String) (e : RuleEntry)
       (l2 : List (String × RuleEntry)),
      p.registry = l1 ++ (r, e) :: l2 →
      (p.registry.map Prod.fst).Nodup →
      (∀ r' e', (r', e') ∈ l1 →
        (e'.fn.getD (s.validators r')) v c e'.args path = true) →
      (e.fn.getD (s.validators r)) v c e.args path = false →
      p.validate s v c path = some (p._error s r c e.args path)) := by
  refine ⟨?_, ?_, ?_⟩
  · intro p s v c path h
    simp [Property.validate, h, runTypes]
  · intro p s v c path h
    apply runTypes_eq_none
    intro t ht
    simp only [Property._run]
    cases hl : lookupKey p.registry t with
    | none => rfl
    | some e =>
      have hpass := h t e (lookupKey_mem _ _ _ hl)
      simp [hpass]
  · intro p s v c path l1 r e l2 hreg hnd hpass hfail
    have hkeys : p.registry.map Prod.fst =
        l1.map Prod.fst ++ r :: l2.map Prod.fst := by
      simp [hreg]
    rw [Property.validate, hkeys, runTypes_append_of_none]
    · have hr : lookupKey p.registry r = some e := by
        apply lookupKey_nodup_mem _ _ _ hnd
        rw [hreg]
        exact List.mem_append_right _ (List.mem_cons_self _ _)
      simp [runTypes, Property._run, hr, hfail]
    · intro t ht
      rcases List.mem_map.mp ht with ⟨⟨r', e'⟩, hmem, hfst⟩
      subst hfst
      have hl : lookupKey p.registry r' = some e' := by
        apply lookupKey_nodup_mem _ _ _ hnd
        rw [hreg]
        exact List.mem_append_left _ hmem
      simp [Property._run, hl, hpass r' e' hmem]

/-- C1 witness: a three-rule registry where the second rule fails; the
result is that rule's error and the third rule is irrelevant. -/
theorem c1_validate_insertion_order_short_circuit_witness :
    Property.validate
      ⟨"p",
        [("a", ⟨[], some fun _ _ _ _ => true⟩),
         ("b", ⟨[], some fun _ _ _ _ => false⟩),
         ("c", ⟨[], some fun _ _ _ _ => true⟩)],
        none, fun _ => none⟩
      ⟨(fun _ => fun _ _ _ _ => true), (fun _ => none), (fun _ => none)⟩
      .null .null "p" = some ⟨none, "p"⟩ := by
  have h := c1_validate_insertion_order_short_circuit.2.2
    ⟨"p",
      [("a", ⟨[], some fun _ _ _ _ => true⟩),
       ("b", ⟨[], some fun _ _ _ _ => false⟩),
       ("c", ⟨[], some fun _ _ _ _ => true⟩)],
      none, fun _ => none⟩
    ⟨(fun _ => fun _ _ _ _ => true), (fun _ => none), (fun _ => none)⟩
    .null .null "p"
    [("a", ⟨[], some fun _ _ _ _ => true⟩)] "b"
    ⟨[], some fun _ _ _ _ => false⟩
    [("c", ⟨[], some fun _ _ _ _ => true⟩)]
    rfl (by simp) ?hpass rfl
  case hpass =>
    intro r' e' hm
    rcases List.mem_singleton.mp hm with h'
    rw [show e' = (⟨[], some fun _ _ _ _ => true⟩ : RuleEntry) from
      (Prod.mk.injEq _ _ _ _ ▸ h').2]
    rfl
  simpa [Property._error, orTruthy] using h

/-- Overwriting the same key twice keeps only the second value, in the
first write's position. -/
theorem setKey_setKey {α : Type} (l : List (String × α)) (k : String)
    (v1 v2 : α) : setKey (setKey l k v1) k v2 = setKey l k v2 := by
  induction l with
  | nil => simp [setKey]
  | cons kv rest ih =>
    obtain ⟨k', v'⟩ := kv
    by_cases hk : k' = k
    · simp [setKey, hk]
    · simp [setKey, hk, ih]

/-- A written key reads back the written value. -/
theorem lookupKey_setKey {α : Type} (l : List (String × α)) (k : String)
    (v : α) : lookupKey (setKey l k v) k = some v := by
  induction l with
  | nil => simp [setKey, lookupKey]
  | cons kv rest ih =>
    obtain ⟨k', v'⟩ := kv
    by_cases hk : k' = k
    · simp [setKey, hk, lookupKey]
    · simp [setKey, hk, lookupKey, ih]

/-- C5: registering the same rule name twice replaces the first
registration entirely — the registry afterwards equals the one obtained
by the second registration alone, the name maps to the second arguments
and function, and in particular `required(true).required(false)` leaves
`required` holding `false`. -/
theorem c5_register_replaces_never_stacks :
    (∀ (p : Property) (r : String) (a1 a2 : List JSVal)
       (f1 f2 : Option ValidatorFn),
      ((p._register r a1 f1)._register r a2 f2).registry =
        (p._register r a2 f2).registry) ∧
    (∀ (p : Property) (r : String) (a1 a2 : List JSVal)
       (f1 f2 : Option ValidatorFn),
      lookupKey ((p._register r a1 f1)._register r a2 f2).registry r =
        some ⟨a2, f2⟩) ∧
    (∀ p : Property,
      lookupKey ((p.required true).required false).registry "required" =
        some ⟨[JSVal.bool false], none⟩) := by
  refine ⟨?_, ?_, ?_⟩
  · intro p r a1 a2 f1 f2
    simp [Property._register, setKey_setKey]
  · intro p r a1 a2 f1 f2
    simp [Property._register, setKey_setKey, lookupKey_setKey]
  · intro p
    simp [Property.required, Property._register, setKey_setKey, lookupKey_setKey]

/-- A falsy-or-absent first operand of `||` yields the second operand. -/
theorem orTruthy_of_untruthy (a b : Option Msg) (h : optTruthy a = false) :
    orTruthy a b = b := by
  cases a with
  | none => rfl
  | some m =>
    simp only [optTruthy] at h
    simp [orTruthy, h]

/-- A present truthy first operand of `||` is kept. -/
theorem orTruthy_of_truthy (a b : Option Msg) (m : Msg) (ha : a = some m)
    (h : m.truthy = true) : orTruthy a b = some m := by
  subst ha
  simp [orTruthy, h]

/-- C6: the error message is resolved by trying, in order, the property's
message for the rule, the property's `default` message, the schema's
message for the rule, and the schema's `default` message — so a
property-level `default` beats a schema-level per-rule message — and a
generator message is applied to `(path, ctx, ...args)`. -/
theorem c6_error_message_resolution :
    (∀ (p : Property) (s : SchemaM) (r : String) (c : JSVal)
       (args : List JSVal) (path : String) (m : Msg),
      p.messages r = some m → m.truthy = true →
      p._error s r c args path = ⟨some (renderMsg m path c args), path⟩) ∧
    (∀ (p : Property) (s : SchemaM) (r : String) (c : JSVal)
       (args : List JSVal) (path : String) (m : Msg),
      optTruthy (p.messages r) = false →
      p.messages "default" = some m → m.truthy = true →
      p._error s r c args path = ⟨some (renderMsg m path c args), path⟩) ∧
    (∀ (p : Property) (s : SchemaM) (r : String) (c : JSVal)
       (args : List JSVal) (path : String) (m : Msg),
      optTruthy (p.messages r) = false →
      optTruthy (p.messages "default") = false →
      s.messages r = some m → m.truthy = true →
      p._error s r c args path = ⟨some (renderMsg m path c args), path⟩) ∧
    (∀ (p : Property) (s : SchemaM) (r : String) (c : JSVal)
       (args : List JSVal) (path : String),
      optTruthy (p.messages r) = false →
      optTruthy (p.messages "default") = false →
      optTruthy (s.messages r) = false →
      p._error s r c args path =
        ⟨(s.messages "default").map (fun m => renderMsg m path c args), path⟩) ∧
    (∀ (p : Property) (s : SchemaM) (r : String) (c : JSVal)
       (args : List JSVal) (path : String) (f : String → JSVal → List JSVal → String),
      p.messages r = some (.fn f) →
      p._error s r c args path = ⟨some (f path c args), path⟩) := by
  refine ⟨?_, ?_, ?_, ?_, ?_⟩
  · intro p s r c args path m hm ht
    simp [Property._error, orTruthy_of_truthy _ _ _ hm ht]
  · intro p s r c args path m h1 hm ht
    simp [Property._error, orTruthy_of_untruthy _ _ h1,
      orTruthy_of_truthy _ _ _ hm ht]
  · intro p s r c args path m h1 h2 hm ht
    simp [Property._error, orTruthy_of_untruthy _ _ h1,
      orTruthy_of_untruthy _ _ h2, orTruthy_of_truthy _ _ _ hm ht]
  · intro p s r c args path h1 h2 h3
    simp [Property._error, orTruthy_of_untruthy _ _ h1,
      orTruthy_of_untruthy _ _ h2, orTruthy_of_untruthy _ _ h3]
  · intro p s r c args path f hm
    simp [Property._error, orTruthy_of_truthy _ _ _ hm rfl, renderMsg]

/-- C6 witness: a property-level `default` message wins over a
schema-level per-rule message. -/
theorem c6_error_message_resolution_witness :
    Property._error
      ⟨"p", [], none,
        fun k => if k = "default" then some (.str "prop default") else none⟩
      ⟨(fun _ => fun _ _ _ _ => true),
        (fun _ => some (.str "schema message")), (fun _ => none)⟩
      "ruleX" .null [] "p" = ⟨some "prop default", "p"⟩ := by
  have h := c6_error_message_resolution.2.1
    ⟨"p", [], none,
      fun k => if k = "default" then some (.str "prop default") else none⟩
    ⟨(fun _ => fun _ _ _ _ => true),
      (fun _ => some (.str "schema message")), (fun _ => none)⟩
    "ruleX" .null [] "p" (.str "prop default") rfl rfl rfl
  simpa [renderMsg] using h

/-- C7: `typecast` is the identity without a declared type; with one it
resolves the canonical type name (the constructor's `.name`, or the
given string, with a lower-cased fallback lookup), applies the registered
typecaster, and throws exactly when none is registered under that
name. -/
theorem c7_typecast_unknown_type_throws :
    (∀ (p : Property) (s : SchemaM) (v : JSVal),
      p._type = none → p.typecast s v = .ok v) ∧
    (∀ (p : Property) (s : SchemaM) (v : JSVal) (c : CtorRef)
       (f : JSVal → JSVal),
      p._type = some (.ctorRef c) →
      (s.typecasters (ctorName c) <|>
        s.typecasters (ctorName c).toLower) = some f →
      p.typecast s v = .ok (f v)) ∧
    (∀ (p : Property) (s : SchemaM) (v : JSVal) (c : CtorRef),
      p._type = some (.ctorRef c) →
      (s.typecasters (ctorName c) <|>
        s.typecasters (ctorName c).toLower) = none →
      p.typecast s v = .error
        ("Не удалось приввести к типу: Не известный тип: " ++ ctorName c ++ ".")) ∧
    (∀ (p : Property) (s : SchemaM) (v : JSVal) (nm : String)
       (f : JSVal → JSVal), nm ≠ "" →
      p._type = some (.str nm) →
      (s.typecasters nm <|> s.typecasters nm.toLower) = some f →
      p.typecast s v = .ok (f v)) ∧
    (∀ (p : Property) (s : SchemaM) (v : JSVal) (nm : String), nm ≠ "" →
      p._type = some (.str nm) →
      (s.typecasters nm <|> s.typecasters nm.toLower) = none →
      p.typecast s v = .error
        ("Не удалось приввести к типу: Не известный тип: " ++ nm ++ ".")) := by
  refine ⟨?_, ?_, ?_, ?_, ?_⟩
  · intro p s v h
    simp [Property.typecast, h]
  · intro p s v c f h hc
    rw [Property.typecast, h]
    simp [JSVal.jsTruthy, typeNameOf, hc]
  · intro p s v c h hc
    rw [Property.typecast, h]
    simp [JSVal.jsTruthy, typeNameOf, hc]
  · intro p s v nm f hnm h hc
    rw [Property.typecast, h]
    simp [JSVal.jsTruthy, typeNameOf, hnm, hc]
  · intro p s v nm hnm h hc
    rw [Property.typecast, h]
    simp [JSVal.jsTruthy, typeNameOf, hnm, hc]

/-- C7 witness: a declared `String` constructor type with a registered
`String` typecaster applies the caster; a custom class without a
registered caster throws. -/
theorem c7_typecast_unknown_type_throws_witness :
    Property.typecast
      ⟨"p", [], some (.ctorRef .string), fun _ => none⟩
      ⟨(fun _ => fun _ _ _ _ => true), (fun _ => none),
        (fun n => if n = "String" then some (fun _ => .str "cast") else none)⟩
      (.num 3) = .ok (.str "cast") ∧
    Property.typecast
      ⟨"p", [], some (.ctorRef (.custom 0 "Car")), fun _ => none⟩
      ⟨(fun _ => fun _ _ _ _ => true), (fun _ => none), (fun _ => none)⟩
      (.num 3) = .error
        ("Не удалось приввести к типу: Не известный тип: " ++ "Car" ++ ".") :=
  ⟨c7_typecast_unknown_type_throws.2.1
      ⟨"p", [], some (.ctorRef .string), fun _ => none⟩
      ⟨(fun _ => fun _ _ _ _ => true), (fun _ => none),
        (fun n => if n = "String" then some (fun _ => .str "cast") else none)⟩
      (.num 3) .string (fun _ => .str "cast") rfl rfl,
   c7_typecast_unknown_type_throws.2.2.1
      ⟨"p", [], some (.ctorRef (.custom 0 "Car")), fun _ => none⟩
      ⟨(fun _ => fun _ _ _ _ => true), (fun _ => none), (fun _ => none)⟩
      (.num 3) (.custom 0 "Car") rfl rfl⟩

/-- C8: `enumerate` with no wildcard left invokes the callback exactly
once with the resolved path and the (possibly `undefined`) value there;
with a wildcard whose resolved-prefix value is not an array it invokes
the callback zero times; and over an array of `n` elements it recurses
exactly once per index, substituting the index for the wildcard. -/
theorem c8_enumerate_wildcard_expansion :
    (∀ (path : List Seg) (obj : JSVal) (first : List String),
      splitSegs path = (first, none) →
      enumerate path obj = [(first, dotGet obj first)]) ∧
    (∀ (path : List Seg) (obj : JSVal) (first : List String)
       (rest : List Seg),
      splitSegs path = (first, some rest) →
      (dotGet obj first).isArr = false →
      enumerate path obj = []) ∧
    (∀ (path : List Seg) (obj : JSVal) (first : List String)
       (rest : List Seg) (xs : List JSVal),
      splitSegs path = (first, some rest) →
      dotGet obj first = .arr xs →
      enumerate path obj =
        (List.range xs.length).flatMap
          (fun i =>
            enumerate (first.map Seg.lit ++ Seg.lit (toString i) :: rest) obj)) := by
  refine ⟨?_, ?_, ?_⟩
  · intro path obj first h
    rw [enumerate]
    split
    · rename_i f hs
      rw [h] at hs
      injection hs with h1 h2
      subst h1
      rfl
    · rename_i f r hs
      rw [h] at hs
      injection hs with h1 h2
      exact absurd h2.symm (by simp)
  · intro path obj first rest h harr
    rw [enumerate]
    split
    · rename_i f hs
      rw [h] at hs
      injection hs with h1 h2
      exact absurd h2 (by simp)
    · rename_i f r hs
      rw [h] at hs
      injection hs with h1 h2
      subst h1
      injection h2 with h2
      subst h2
      split
      · rename_i xs hx
        rw [hx] at harr
        simp [JSVal.isArr] at harr
      · rfl
  · intro path obj first rest xs h hx
    rw [enumerate]
    split
    · rename_i f hs
      rw [h] at hs
      injection hs with h1 h2
      exact absurd h2 (by simp)
    · rename_i f r hs
      rw [h] at hs
      injection hs with h1 h2
      subst h1
      injection h2 with h2
      subst h2
      split
      · rename_i ys hy
        rw [hx] at hy
        injection hy with hy
        subst hy
        rfl
      · rename_i hne
        exact absurd hx (hne xs)

/-- C8 witness: `pets.$` over a two-element array recurses once per
index, and a wildcard-free path produces one callback invocation with
the value at the path. -/
theorem c8_enumerate_wildcard_expansion_witness :
    enumerate [Seg.lit "pets", Seg.star]
        (.obj [("pets", .arr [.num 5, .num 6])]) =
      (List.range 2).flatMap
        (fun i =>
          enumerate ([Seg.lit "pets"] ++ Seg.lit (toString i) :: [])
            (.obj [("pets", .arr [.num 5, .num 6])])) ∧
    enumerate [Seg.lit "a"] (.obj [("a", .num 7), ("b", .num 8)]) =
      [(["a"], .num 7)] := by
  constructor
  · have h := c8_enumerate_wildcard_expansion.2.2
      [Seg.lit "pets", Seg.star] (.obj [("pets", .arr [.num 5, .num 6])])
      ["pets"] [] [.num 5, .num 6] rfl rfl
    simpa using h
  · have h := c8_enumerate_wildcard_expansion.1
      [Seg.lit "a"] (.obj [("a", .num 7), ("b", .num 8)]) ["a"] rfl
    simpa [dotGet, getKey, findEntry] using h

/-- The array branch of `walk` traverses the elements in order, pairing
each with its index. -/
theorem walkItems_eq_enumFrom (xs : List JSVal)
    (callback : String → String → Bool) (path prop : String) (n : Nat) :
    walkItems xs callback path prop n =
      (List.enumFrom n xs).flatMap
        (fun iv => walk iv.2 callback (join (toString iv.1) path)
          (join "$" prop)) := by
  induction xs generalizing n with
  | nil => rfl
  | cons v rest ih => simp [walkItems, List.enumFrom_cons, ih]

/-- The object branch of `walk` is a flat map over the entries. -/
theorem walkEntries_eq_flatMap (entries : List (String × JSVal))
    (callback : String → String → Bool) (path prop : String) :
    walkEntries entries callback path prop =
      entries.flatMap (fun kv =>
        (join kv.1 path, join kv.1 prop) ::
          (if callback (join kv.1 path) (join kv.1 prop) then
            walk kv.2 callback (join kv.1 path) (join kv.1 prop)
          else [])) := by
  induction entries with
  | nil => rfl
  | cons kv rest ih =>
    obtain ⟨k, v⟩ := kv
    simp [walkEntries, ih]

/-- C9: `walk` is a depth-first traversal in which each array element
contributes its numeric index to the path accumulator and a `$` to the
property-name accumulator, each object key is contributed to both
accumulators and triggers one callback invocation, descent below an
object entry happens exactly when its callback returns true (false
prunes the subtree), and scalar values contribute nothing. -/
theorem c9_walk_depth_first_pruning :
    (∀ (xs : List JSVal) (callback : String → String → Bool)
       (path prop : String),
      walk (.arr xs) callback path prop =
        (List.enumFrom 0 xs).flatMap
          (fun iv => walk iv.2 callback (join (toString iv.1) path)
            (join "$" prop))) ∧
    (∀ (entries : List (String × JSVal)) (callback : String → String → Bool)
       (path prop : String),
      walk (.obj entries) callback path prop =
        entries.flatMap (fun kv =>
          (join kv.1 path, join kv.1 prop) ::
            (if callback (join kv.1 path) (join kv.1 prop) then
              walk kv.2 callback (join kv.1 path) (join kv.1 prop)
            else []))) ∧
    (∀ (k : String) (v : JSVal) (rest : List (String × JSVal))
       (callback : String → String → Bool) (path prop : String),
      callback (join k path) (join k prop) = false →
      walk (.obj ((k, v) :: rest)) callback path prop =
        (join k path, join k prop) :: walk (.obj rest) callback path prop) ∧
    (∀ (k : String) (v : JSVal) (rest : List (String × JSVal))
       (callback : String → String → Bool) (path prop : String),
      callback (join k path) (join k prop) = true →
      walk (.obj ((k, v) :: rest)) callback path prop =
        ((join k path, join k prop) ::
          walk v callback (join k path) (join k prop)) ++
          walk (.obj rest) callback path prop) ∧
    (∀ (v : JSVal) (callback : String → String → Bool) (path prop : String),
      v.typeOf ≠ "object" → v.typeOf ≠ "array" →
      walk v callback path prop = []) := by
  refine ⟨?_, ?_, ?_, ?_, ?_⟩
  · intro xs callback path prop
    rw [walk]
    exact walkItems_eq_enumFrom xs callback path prop 0
  · intro entries callback path prop
    rw [walk]
    exact walkEntries_eq_flatMap entries callback path prop
  · intro k v rest callback path prop hcb
    rw [walk, walk, walkEntries, hcb]
    rfl
  · intro k v rest callback path prop hcb
    rw [walk, walk, walkEntries, hcb]
    rfl
  · intro v callback path prop hobj harr
    cases v with
    | arr xs => exact absurd rfl harr
    | obj entries => exact absurd rfl hobj
    | inst c entries => rw [walk, if_neg hobj]
    | null => rfl
    | undefined => rfl
    | bool b => rfl
    | num n => rfl
    | str s => rfl
    | ctorRef c => rfl

/-- C9 witness: a callback returning false at the key `skip` prunes the
subtree below it; only that key's invocation is recorded. -/
theorem c9_walk_depth_first_pruning_witness :
    walk (.obj [("skip", .obj [("x", .num 1)])])
      (fun p _ => p != "skip") "" "" =
      ("skip", "skip") :: walk (.obj []) (fun p _ => p != "skip") "" "" := by
  have h := c9_walk_depth_first_pruning.2.2.1 "skip" (.obj [("x", .num 1)])
    [] (fun p _ => p != "skip") "" "" (by simp [join])
  simpa [join] using h

/-- The second component of `Property.use` is the caller's object with
every array value shifted in place. -/
theorem use_snd_eq_map (p : Property) (fns : List (String × UseVal)) :
    (Property.use p fns).2 = fns.map (fun nv => (nv.1, shiftVal nv.2)) := by
  induction fns generalizing p with
  | nil => rfl
  | cons nv rest ih =>
    obtain ⟨name, v⟩ := nv
    simp [Property.use, ih]

/-- C10: `Property.use` mutates the caller's array values in place: the
whole passed object ends up with each array shifted, and in particular an
entry `[fn, ...staticArgs]` afterwards holds only the static
arguments. -/
theorem c10_use_shifts_callers_array :
    (∀ (p : Property) (fns : List (String × UseVal)),
      (Property.use p fns).2 = fns.map (fun nv => (nv.1, shiftVal nv.2))) ∧
    (∀ (p : Property) (fns : List (String × UseVal)) (name : String)
       (f : ValidatorFn) (args : List UseElem),
      (name, UseVal.arr (UseElem.vfn f :: args)) ∈ fns →
      (name, UseVal.arr args) ∈ (Property.use p fns).2) := by
  constructor
  · exact use_snd_eq_map
  · intro p fns name f args hm
    rw [use_snd_eq_map]
    have h := List.mem_map_of_mem (fun nv => (nv.1, shiftVal nv.2)) hm
    simpa [shiftVal] using h

/-- C10 witness: an entry `[fn, 32]` becomes `[32]` in the caller's
object after `use`. -/
theorem c10_use_shifts_callers_array_witness :
    ("hex", UseVal.arr [UseElem.varg (.num 32)]) ∈
      (Property.use ⟨"p", [], none, fun _ => none⟩
        [("hex",
          UseVal.arr [UseElem.vfn fun _ _ _ _ => true,
            UseElem.varg (.num 32)])]).2 :=
  c10_use_shifts_callers_array.2
    ⟨"p", [], none, fun _ => none⟩
    [("hex",
      UseVal.arr [UseElem.vfn fun _ _ _ _ => true, UseElem.varg (.num 32)])]
    "hex" (fun _ _ _ _ => true) [UseElem.varg (.num 32)]
    (List.mem_cons_self _ _)
